import Mathlib

/-!
Shallow embedding of the core of the BabililoBot repository
(`src/bot/middleware/rate_limit.py`, `src/bot/handlers/chat.py`,
`src/services/conversation.py`) and proofs of the specification claims.

Python floats are modelled as rationals (`ℚ`), Python strings as Lean
`String`/`List Char`, Python dicts as association lists, and the mutation
of objects as explicit state passing.  The file is organised as
definitions first (translated from the Python source), then theorems.
-/

namespace RateLimit

/-- Model of `TokenBucket` from `src/bot/middleware/rate_limit.py`.
`capacity : int`, `tokens : float`, `last_update : float`,
`refill_rate : float` are modelled with `ℚ` for the numeric fields.
`__post_init__` sets `tokens = float(capacity)`; see `mkTokenBucket`. -/
structure TokenBucket where
  capacity : ℚ
  tokens : ℚ
  last_update : ℚ
  refill_rate : ℚ
  deriving Repr, DecidableEq

/-- Constructor call `TokenBucket(capacity=c, refill_rate=r)` at wall-clock time
`now` (`last_update : float = field(default_factory=time.time)`), with
`__post_init__` overwriting `tokens` with `float(capacity)`. -/
def mkTokenBucket (c r now : ℚ) : TokenBucket :=
  { capacity := c, tokens := c, last_update := now, refill_rate := r }

/-- Model of `TokenBucket._refill` evaluated at wall-clock time `now`:
`tokens = min(capacity, tokens + elapsed * refill_rate); last_update = now`. -/
def refill (b : TokenBucket) (now : ℚ) : TokenBucket :=
  { b with
    tokens := min b.capacity (b.tokens + (now - b.last_update) * b.refill_rate)
    last_update := now }

/-- Model of `TokenBucket.consume(tokens=n)` at wall-clock time `now`: refill, then
subtract `n` if `tokens >= n`.  Returns the success flag and the mutated
bucket.  `n` is an integer amount (`tokens : int = 1` in the source). -/
def consume (b : TokenBucket) (n : ℕ) (now : ℚ) : Bool × TokenBucket :=
  let b' := refill b now
  if (n : ℚ) ≤ b'.tokens then
    (true, { b' with tokens := b'.tokens - (n : ℚ) })
  else
    (false, b')

/-- Model of `TokenBucket.time_until_available(tokens=n)` at time `now`: refill, then
`0` if enough tokens, else `(n - tokens) / refill_rate`.  Returns the wait
and the mutated (refilled) bucket. -/
def time_until_available (b : TokenBucket) (n : ℕ) (now : ℚ) : ℚ × TokenBucket :=
  let b' := refill b now
  if (n : ℚ) ≤ b'.tokens then
    (0, b')
  else
    (((n : ℚ) - b'.tokens) / b'.refill_rate, b')

/-- One externally triggered bucket operation: a `consume(n)` call at a given
wall-clock time, or a bare refill at a given wall-clock time. -/
inductive BucketOp where
  | consumeOp (n : ℕ) (t : ℚ)
  | refillOp (t : ℚ)
  deriving Repr, DecidableEq

/-- Apply one operation to a bucket (dropping the boolean result of
`consume`). -/
def applyOp (b : TokenBucket) : BucketOp → TokenBucket
  | .consumeOp n t => (consume b n t).2
  | .refillOp t => refill b t

/-- Run a sequence of operations left to right. -/
def runOps (b : TokenBucket) : List BucketOp → TokenBucket
  | [] => b
  | op :: rest => runOps (applyOp b op) rest

/-- The wall-clock time named by an operation. -/
def BucketOp.time : BucketOp → ℚ
  | .consumeOp _ t => t
  | .refillOp t => t

/-- Monotonically non-decreasing wall-clock time along a trace: each
operation happens no earlier than the bucket's `last_update`.  Since every
operation sets `last_update` to its own time, this is exactly monotone
timestamps starting at or after the bucket's creation point. -/
def validTrace (b : TokenBucket) : List BucketOp → Prop
  | [] => True
  | op :: rest => b.last_update ≤ op.time ∧ validTrace (applyOp b op) rest

instance (b : TokenBucket) (ops : List BucketOp) : Decidable (validTrace b ops) := by
  induction ops generalizing b with
  | nil => exact .isTrue trivial
  | cons op rest ih => exact @instDecidableAnd _ _ inferInstance (ih _)

/-- The bucket invariant claimed by the spec: `0 ≤ tokens ≤ capacity`. -/
def Inv (b : TokenBucket) : Prop :=
  0 ≤ b.tokens ∧ b.tokens ≤ b.capacity

instance (b : TokenBucket) : Decidable (Inv b) := by
  unfold Inv; infer_instance

/-- The mutable state of `RateLimiter` from
`src/bot/middleware/rate_limit.py`: the `_buckets` dict (modelled as an
association list keyed by Telegram user id, in insertion order) together
with the configured `capacity = settings.rate_limit_messages` and
`refill_rate = capacity / settings.rate_limit_window_seconds`. -/
structure RateLimiterState where
  buckets : List (ℕ × TokenBucket)
  capacity : ℚ
  refill_rate : ℚ
  deriving Repr, DecidableEq

/-- Dict lookup `self._buckets[user_id]` (as used via the
`user_id in self._buckets` check). -/
def lookupBucket (st : RateLimiterState) (user_id : ℕ) : Option TokenBucket :=
  (st.buckets.find? (fun p => p.1 == user_id)).map (·.2)

/-- Dict assignment on the underlying association list: replace the value at
an existing key, else append a new entry (Python dicts keep insertion
order). -/
def storeList (l : List (ℕ × TokenBucket)) (user_id : ℕ) (b : TokenBucket) :
    List (ℕ × TokenBucket) :=
  match l with
  | [] => [(user_id, b)]
  | p :: rest =>
      if p.1 == user_id then (user_id, b) :: rest
      else p :: storeList rest user_id b

/-- Dict store `self._buckets[user_id] = b`. -/
def storeBucket (st : RateLimiterState) (user_id : ℕ) (b : TokenBucket) :
    RateLimiterState :=
  { st with buckets := storeList st.buckets user_id b }

/-- Model of `RateLimiter._get_bucket(user_id)` at wall-clock time `now`: get the
existing bucket or create a fresh one (`TokenBucket(capacity=self.capacity,
refill_rate=self.refill_rate)`, created full at time `now`).  Returns the
bucket and the possibly extended state. -/
def _get_bucket (st : RateLimiterState) (user_id : ℕ) (now : ℚ) :
    TokenBucket × RateLimiterState :=
  match lookupBucket st user_id with
  | some b => (b, st)
  | none =>
      let b := mkTokenBucket st.capacity st.refill_rate now
      (b, storeBucket st user_id b)

/-- Model of `RateLimiter.check_rate_limit(user_id, is_admin)` at wall-clock time
`now`.  Admins return `(True, 0.0)` immediately without touching the bucket
map; otherwise the user's bucket is fetched or created, one token is
consumed, and on denial `time_until_available(1)` supplies the wait time.
In Python the bucket object is mutated in place; here the mutated bucket is
written back into the state. -/
def check_rate_limit (st : RateLimiterState) (user_id : ℕ) (is_admin : Bool)
    (now : ℚ) : (Bool × ℚ) × RateLimiterState :=
  if is_admin then
    ((true, 0), st)
  else
    let gb := _get_bucket st user_id now
    let cr := consume gb.1 1 now
    if cr.1 then
      ((true, 0), storeBucket gb.2 user_id cr.2)
    else
      let ta := time_until_available cr.2 1 now
      ((false, ta.1), storeBucket gb.2 user_id ta.2)

/-- A run of `k` consecutive `check_rate_limit(user_id, is_admin=False)`
calls, all at the same wall-clock instant `now`.  Returns the list of
`allowed` flags in call order and the final state. -/
def runChecks (st : RateLimiterState) (user_id : ℕ) (now : ℚ) :
    ℕ → List Bool × RateLimiterState
  | 0 => ([], st)
  | k + 1 =>
      let r := check_rate_limit st user_id false now
      let rest := runChecks r.2 user_id now k
      (r.1.1 :: rest.1, rest.2)

end RateLimit

namespace Chat

/-- Python `str.strip()`: remove leading and trailing whitespace characters
(modelled on `List Char` with `Char.isWhitespace`). -/
def pyStrip (l : List Char) : List Char :=
  ((l.dropWhile Char.isWhitespace).reverse.dropWhile Char.isWhitespace).reverse

/-- Python `text.rfind(pat, 0, stop)`: the greatest index at which `pat`
occurs entirely inside the slice `text[0:stop]`, as an `Option`
(`none` models the `-1` result). -/
def pyRfind (l pat : List Char) (stop : ℕ) : Option ℕ :=
  let s := l.take stop
  ((List.range (s.length + 1)).filter
    (fun i => decide (i + pat.length ≤ s.length) &&
      ((s.drop i).take pat.length == pat))).getLast?

/-- One stage of the split-point cascade: the Python
`if split_point == -1 or split_point < max_length // 2: split_point = <next>`
pattern — keep the current candidate only when it exists and sits at or
past the halfway point, else fall through to the next search result. -/
def pickSplit (half : ℕ) (cur next : Option ℕ) : Option ℕ :=
  match cur with
  | none => next
  | some i => if i < half then next else some i

/-- The split-point cascade of `ChatHandler._split_message`
(`src/bot/handlers/chat.py` lines 66-75): prefer the last `"\n\n"`, then
`"\n"`, then `". "`, then `" "` inside the first `max_length` characters,
rejecting a candidate that sits before the halfway point
(`split_point < max_length // 2`); fall back to the hard boundary
`max_length` when even the space search fails (only `== -1` is tested for
the space). -/
def findSplitPoint (text : List Char) (max_length : ℕ) : ℕ :=
  let half := max_length / 2
  match pickSplit half (pickSplit half (pickSplit half
      (pyRfind text ['\n', '\n'] max_length)
      (pyRfind text ['\n'] max_length))
      (pyRfind text ['.', ' '] max_length))
      (pyRfind text [' '] max_length) with
  | none => max_length
  | some i => i

/-- The `while text:` loop of `ChatHandler._split_message`, written with an
explicit fuel so that it is structurally recursive and computable by the
kernel: emit `text[:split_point + 1].strip()` and continue with
`text[split_point + 1:].strip()` until the remainder fits (appended
unchanged) or becomes empty.  Each iteration drops at least
`split_point + 1 ≥ 1` characters, so `text.length` iterations always
suffice; `splitLoopF_fuel_irrelevant` below shows any sufficient fuel gives
the same result, i.e. the fuel is not observable. -/
def splitLoopF : ℕ → List Char → ℕ → List (List Char)
  | 0, _, _ => []
  | fuel + 1, text, max_length =>
    if text = [] then []
    else if text.length ≤ max_length then [text]
    else
      let sp := findSplitPoint text max_length
      pyStrip (text.take (sp + 1)) ::
        splitLoopF fuel (pyStrip (text.drop (sp + 1))) max_length

/-- The `while text:` loop of `ChatHandler._split_message`, run with the
always-sufficient fuel `text.length`. -/
def splitLoop (text : List Char) (max_length : ℕ) : List (List Char) :=
  splitLoopF text.length text max_length

/-- Model of `ChatHandler._split_message(text, max_length=4000)`: texts that already
fit are returned as a single unmodified chunk, longer texts go through the
splitting loop. -/
def _split_message (text : List Char) (max_length : ℕ) : List (List Char) :=
  if text.length ≤ max_length then [text] else splitLoop text max_length

/-- The non-whitespace characters of a text, in order.  Used to state that
splitting loses only boundary whitespace. -/
def nonWS (l : List Char) : List Char :=
  l.filter (fun c => !c.isWhitespace)

/-- The mutable local state of `ChatHandler._stream_response`
(`src/bot/handlers/chat.py` lines 250-254): the accumulated `full_content`,
the last successfully pushed `last_update` text, and `last_update_time`.
Wall-clock times are rationals. -/
structure StreamState where
  full_content : String
  last_update : String
  last_update_time : ℚ
  deriving Repr, DecidableEq

/-- One event observed by the `async for chunk in ...stream_chat_completion`
loop: either a text fragment arriving at a wall-clock time (with the
outcome of the Telegram `edit_text` call, should one be attempted), or the
stream raising an exception. -/
inductive StreamEvent where
  | frag (chunk : String) (now : ℚ) (editOk : Bool)
  | err
  deriving Repr, DecidableEq

/-- The loop body of `_stream_response` for one arriving fragment:
append the chunk to `full_content`; if at least `update_interval = 0.5`
seconds passed since the last successful edit AND the accumulated text is
still under 3500 characters, form `display_text = full_content + " ▌"`, and
if it grew by at least 20 characters over the last pushed text, push it as
a live partial update (`message.edit_text`).  `last_update` and
`last_update_time` advance only when the edit succeeds (a `BadRequest`
from the edit is swallowed).  Returns the new state and the pushed update,
if any. -/
def streamStep (st : StreamState) (chunk : String) (now : ℚ) (editOk : Bool) :
    StreamState × Option String :=
  let full := st.full_content ++ chunk
  if (1 : ℚ) / 2 ≤ now - st.last_update_time ∧ full.length < 3500 then
    let display := full ++ " ▌"
    if 20 ≤ (display.length : ℤ) - (st.last_update.length : ℤ) then
      if editOk then
        (⟨full, display, now⟩, some display)
      else
        (⟨full, st.last_update, st.last_update_time⟩, some display)
    else
      (⟨full, st.last_update, st.last_update_time⟩, none)
  else
    (⟨full, st.last_update, st.last_update_time⟩, none)

/-- Model of `ChatHandler._stream_response`, folded over the event sequence.
Returns the final text the relay hands to the caller together with the
live updates pushed along the way, in order.  On normal exhaustion the
relay returns `full_content`; on a stream error it returns the non-empty
accumulated buffer, or else the content of the single non-streaming
`chat_completion` fallback call (`fallback`). -/
def streamRun (st : StreamState) (evs : List StreamEvent) (fallback : String) :
    String × List String :=
  match evs with
  | [] => (st.full_content, [])
  | .err :: _ =>
      (if st.full_content = "" then fallback else st.full_content, [])
  | .frag chunk now editOk :: rest =>
      let step := streamStep st chunk now editOk
      let tail := streamRun step.1 rest fallback
      (tail.1, step.2.toList ++ tail.2)

/-- A whole `_stream_response` call: the accumulator starts empty with
`last_update = ""` and `last_update_time` the loop entry time `t0`. -/
def streamResponse (evs : List StreamEvent) (fallback : String) (t0 : ℚ) :
    String × List String :=
  streamRun ⟨"", "", t0⟩ evs fallback

/-- The chunk carried by a fragment event (`""` for the error event). -/
def StreamEvent.chunk : StreamEvent → String
  | .frag c _ _ => c
  | .err => ""

/-- The concatenation of the fragment texts of a list of
`(chunk, arrival time, edit outcome)` triples — what `full_content` holds
after the loop has consumed them all. -/
def chunksText (ps : List (String × ℚ × Bool)) : String :=
  match ps with
  | [] => ""
  | p :: rest => p.1 ++ chunksText rest

/-- Lift `(chunk, arrival time, edit outcome)` triples to fragment events. -/
def fragEvents (ps : List (String × ℚ × Bool)) : List StreamEvent :=
  ps.map (fun p => StreamEvent.frag p.1 p.2.1 p.2.2)

end Chat

namespace Conversation

/-- Model of `ChatMessage` from `src/services/openrouter.py`: a role-tagged message. -/
structure ChatMessage where
  role : String
  content : String
  deriving Repr, DecidableEq

/-- Model of `ConversationManager.estimate_tokens`: total content length divided by
4 (Python `//`, i.e. `Nat` division). -/
def estimate_tokens (messages : List ChatMessage) : ℕ :=
  (messages.map (fun m => m.content.length)).sum / 4

/-- Reattach the optionally held-out system message, as in
`messages = [system_msg] + other_msgs if system_msg else other_msgs`. -/
def assemble (sys : Option ChatMessage) (others : List ChatMessage) :
    List ChatMessage :=
  match sys with
  | some s => s :: others
  | none => others

/-- The selection `system_msg = messages[0] if messages[0].role == "system" else None`. -/
def sysPart (messages : List ChatMessage) : Option ChatMessage :=
  match messages with
  | m :: _ => if m.role = "system" then some m else none
  | [] => none

/-- The selection `other_msgs = messages[1:] if system_msg else messages`. -/
def othersPart (messages : List ChatMessage) : List ChatMessage :=
  match messages with
  | m :: rest => if m.role = "system" then rest else messages
  | [] => []

/-- The `while` loop of `ConversationManager.trim_context_if_needed`
(`src/services/conversation.py` lines 167-169): while the estimate of the
reassembled list exceeds the budget and more than two other messages
remain, drop the oldest other message. -/
def trimLoop (sys : Option ChatMessage) (others : List ChatMessage)
    (max_tokens : ℕ) : List ChatMessage :=
  if max_tokens < estimate_tokens (assemble sys others) ∧ 2 < others.length then
    trimLoop sys others.tail max_tokens
  else
    assemble sys others
  termination_by others.length
  decreasing_by
    rename_i h
    cases others with
    | nil => simp at h
    | cons a l => simp

/-- Model of `ConversationManager.trim_context_if_needed(messages, max_tokens=4000)`:
return unchanged when under budget or when at most two messages exist;
otherwise hold out a leading system message and drop oldest non-held
messages until under budget or only two remain. -/
def trim_context_if_needed (messages : List ChatMessage)
    (max_tokens : ℕ := 4000) : List ChatMessage :=
  if estimate_tokens messages ≤ max_tokens then messages
  else if messages.length ≤ 2 then messages
  else trimLoop (sysPart messages) (othersPart messages) max_tokens

/-- The constant `DEFAULT_SYSTEM_PROMPT` (`src/services/conversation.py`); content
abbreviated to its role in the claims: only its identity matters. -/
def DEFAULT_SYSTEM_PROMPT : String :=
  "You are BabililoBot, a helpful, friendly, and intelligent AI assistant."

/-- Model of `ConversationManager._get_system_prompt`: the active persona's prompt
when the repository call succeeds and finds one, else the default (also on
a raised repository error, which is caught and logged). -/
def _get_system_prompt (personaResult : Except Unit (Option String)) : String :=
  match personaResult with
  | .ok (some prompt) => prompt
  | .ok none => DEFAULT_SYSTEM_PROMPT
  | .error _ => DEFAULT_SYSTEM_PROMPT

/-- Model of `ConversationManager.get_context_messages`: optionally append the
system prompt (augmented with at most 10000 characters of document
context), then try to fetch the active conversation's recent messages —
a raised persistence error is caught, leaving the history contribution
empty.  `historyResult` stands for the outcome of the
`get_or_create_active_conversation` / `get_conversation_messages` block. -/
def get_context_messages (include_system : Bool)
    (personaResult : Except Unit (Option String))
    (docContext : Option String)
    (historyResult : Except Unit (List Conversation.ChatMessage)) :
    List ChatMessage :=
  let sysMsgs : List ChatMessage :=
    if include_system then
      let basePrompt := _get_system_prompt personaResult
      let prompt :=
        match docContext with
        | some doc => basePrompt ++
            "\n\n[Document Context]\nThe user has uploaded a document. Use this content to answer their questions:\n\n"
            ++ (doc.take 10000)
        | none => basePrompt
      [⟨"system", prompt⟩]
    else []
  match historyResult with
  | .ok history => sysMsgs ++ history
  | .error _ => sysMsgs

/-- Model of `ConversationManager.build_api_messages`: the context messages with the
new user input appended. -/
def build_api_messages (personaResult : Except Unit (Option String))
    (docContext : Option String)
    (historyResult : Except Unit (List ChatMessage))
    (new_message : String) : List ChatMessage :=
  get_context_messages true personaResult docContext historyResult ++
    [⟨"user", new_message⟩]

end Conversation

-- ********** Theorems **********

namespace RateLimit

lemma refill_tokens_le_capacity (b : TokenBucket) (now : ℚ) :
    (refill b now).tokens ≤ b.capacity := by
  simp [refill]

lemma refill_tokens_ge (b : TokenBucket) (now : ℚ)
    (hrate : 0 ≤ b.refill_rate) (hcap : b.tokens ≤ b.capacity)
    (htime : b.last_update ≤ now) : b.tokens ≤ (refill b now).tokens := by
  have helapsed : 0 ≤ (now - b.last_update) * b.refill_rate :=
    mul_nonneg (by linarith) hrate
  simp only [refill]
  exact le_min hcap (by linarith)

/-- Lemma: `refill` preserves the invariant when rate is non-negative and time does
not run backwards. -/
lemma refill_preserves_inv (b : TokenBucket) (now : ℚ)
    (hrate : 0 ≤ b.refill_rate) (hinv : Inv b) (htime : b.last_update ≤ now) :
    Inv (refill b now) := by
  obtain ⟨h0, hc⟩ := hinv
  refine ⟨le_trans h0 (refill_tokens_ge b now hrate hc htime), ?_⟩
  exact refill_tokens_le_capacity b now

/-- Lemma: `consume` preserves the invariant. -/
lemma consume_preserves_inv (b : TokenBucket) (n : ℕ) (now : ℚ)
    (hrate : 0 ≤ b.refill_rate) (hinv : Inv b) (htime : b.last_update ≤ now) :
    Inv (consume b n now).2 := by
  have h' := refill_preserves_inv b now hrate hinv htime
  obtain ⟨h0, hc⟩ := h'
  unfold consume
  by_cases hok : (n : ℚ) ≤ (refill b now).tokens
  · simp only [hok, if_pos]
    refine ⟨by simp [sub_nonneg.mpr hok], ?_⟩
    have hn : (0 : ℚ) ≤ (n : ℚ) := Nat.cast_nonneg n
    exact le_trans (by simp [sub_le_self (refill b now).tokens hn]) hc
  · simp only [hok, if_neg, not_false_iff]
    exact ⟨h0, hc⟩

lemma applyOp_preserves_inv (b : TokenBucket) (op : BucketOp)
    (hrate : 0 ≤ b.refill_rate) (hinv : Inv b) (htime : b.last_update ≤ op.time) :
    Inv (applyOp b op) := by
  cases op with
  | consumeOp n t => exact consume_preserves_inv b n t hrate hinv htime
  | refillOp t => exact refill_preserves_inv b t hrate hinv htime

lemma applyOp_refill_rate (b : TokenBucket) (op : BucketOp) :
    (applyOp b op).refill_rate = b.refill_rate := by
  cases op with
  | consumeOp n t =>
    simp only [applyOp, consume]
    split <;> rfl
  | refillOp t => rfl

lemma runOps_preserves_inv (ops : List BucketOp) (b : TokenBucket)
    (hrate : 0 ≤ b.refill_rate) (hinv : Inv b) (htrace : validTrace b ops) :
    Inv (runOps b ops) := by
  induction ops generalizing b with
  | nil => exact hinv
  | cons op rest ih =>
    obtain ⟨htime, htrace'⟩ := htrace
    exact ih (applyOp b op)
      (by rw [applyOp_refill_rate]; exact hrate)
      (applyOp_preserves_inv b op hrate hinv htime) htrace'

/-- C1: for every `TokenBucket` and every sequence of `consume(n)` calls
interleaved with refills under non-decreasing wall-clock time,
`0 ≤ tokens ≤ capacity` holds after the run (hence at every observation
point, the sequence being arbitrary); moreover a refill never lowers the
token count and never pushes it above capacity, and a `consume` changes
the refilled token count exactly by subtracting `n` on success and not at
all on failure. -/
theorem claim1_bucket_invariant (b : TokenBucket) (ops : List BucketOp)
    (hrate : 0 ≤ b.refill_rate) (hinv : Inv b) (htrace : validTrace b ops) :
    Inv (runOps b ops) ∧
    (∀ now, b.last_update ≤ now →
      b.tokens ≤ (refill b now).tokens ∧ (refill b now).tokens ≤ b.capacity) ∧
    (∀ n now,
      ((consume b n now).1 = true →
        (consume b n now).2.tokens = (refill b now).tokens - (n : ℚ)) ∧
      ((consume b n now).1 = false → (consume b n now).2 = refill b now)) := by
  refine ⟨runOps_preserves_inv ops b hrate hinv htrace, ?_, ?_⟩
  · intro now htime
    exact ⟨refill_tokens_ge b now hrate hinv.2 htime, refill_tokens_le_capacity b now⟩
  · intro n now
    unfold consume
    by_cases hok : (n : ℚ) ≤ (refill b now).tokens
    · simp [hok]
    · simp [hok]

/-- Witness for C1 at a concrete bucket and trace. -/
theorem claim1_bucket_invariant_witness :
    Inv (runOps (TokenBucket.mk 2 2 0 1)
      [BucketOp.consumeOp 1 0, BucketOp.refillOp 1, BucketOp.consumeOp 3 2]) :=
  (claim1_bucket_invariant (TokenBucket.mk 2 2 0 1)
    [BucketOp.consumeOp 1 0, BucketOp.refillOp 1, BucketOp.consumeOp 3 2]
    (by norm_num) (by refine ⟨?_, ?_⟩ <;> norm_num)
    (by norm_num [validTrace, applyOp, consume, refill, BucketOp.time])).1

/-- C6: an admission check for a privileged (admin) entity returns
the pair of `allowed = true` and `wait = 0` and leaves the bucket map untouched,
whatever the prior state. -/
theorem claim6_admin_bypass (st : RateLimiterState) (user_id : ℕ) (now : ℚ) :
    check_rate_limit st user_id true now = ((true, 0), st) := rfl

lemma find?_storeList (l : List (ℕ × TokenBucket)) (user_id : ℕ)
    (b : TokenBucket) :
    (storeList l user_id b).find? (fun p => p.1 == user_id) = some (user_id, b) := by
  induction l with
  | nil => simp [storeList]
  | cons p rest ih =>
    by_cases hp : p.1 = user_id
    · simp [storeList, hp]
    · simp [storeList, hp, List.find?_cons, ih]

lemma lookupBucket_storeBucket (st : RateLimiterState) (user_id : ℕ)
    (b : TokenBucket) :
    lookupBucket (storeBucket st user_id b) user_id = some b := by
  simp [lookupBucket, storeBucket, find?_storeList]

/-- A bucket whose `last_update` already equals `now` and whose tokens are
within capacity is left unchanged by `_refill`. -/
lemma refill_same_time_eq (b : TokenBucket) (now : ℚ)
    (hl : b.last_update = now) (hc : b.tokens ≤ b.capacity) :
    refill b now = b := by
  cases b with
  | mk c t l r =>
    simp only [refill]
    simp_all [min_eq_right hc]

lemma consume_success_eq (b : TokenBucket) (n : ℕ) (now : ℚ)
    (h : (n : ℚ) ≤ (refill b now).tokens) :
    consume b n now =
      (true, { refill b now with tokens := (refill b now).tokens - (n : ℚ) }) := by
  simp [consume, h]

lemma consume_fail_eq (b : TokenBucket) (n : ℕ) (now : ℚ)
    (h : ¬ (n : ℚ) ≤ (refill b now).tokens) :
    consume b n now = (false, refill b now) := by
  simp [consume, h]

/-- Reduction of `check_rate_limit` for a non-admin whose bucket already exists. -/
lemma check_rate_limit_some (st : RateLimiterState) (user_id : ℕ) (now : ℚ)
    (b : TokenBucket) (hlook : lookupBucket st user_id = some b) :
    check_rate_limit st user_id false now =
      (if (consume b 1 now).1 then
        ((true, 0), storeBucket st user_id (consume b 1 now).2)
      else
        ((false, (time_until_available (consume b 1 now).2 1 now).1),
          storeBucket st user_id (time_until_available (consume b 1 now).2 1 now).2)) := by
  simp [check_rate_limit, _get_bucket, hlook]

/-- For a non-admin with no bucket yet, the check behaves exactly like the
check run from the state where a full bucket was just created. -/
lemma check_rate_limit_none (st : RateLimiterState) (user_id : ℕ) (now : ℚ)
    (hnone : lookupBucket st user_id = none) :
    check_rate_limit st user_id false now =
      check_rate_limit
        (storeBucket st user_id (mkTokenBucket st.capacity st.refill_rate now))
        user_id false now := by
  have h2 := lookupBucket_storeBucket st user_id
    (mkTokenBucket st.capacity st.refill_rate now)
  rw [check_rate_limit_some _ user_id now _ h2]
  simp [check_rate_limit, _get_bucket, hnone]

lemma runChecks_congr_first (st st' : RateLimiterState) (user_id : ℕ)
    (now : ℚ) (k : ℕ)
    (h : check_rate_limit st user_id false now =
         check_rate_limit st' user_id false now) :
    runChecks st user_id now (k + 1) = runChecks st' user_id now (k + 1) := by
  simp [runChecks, h]

/-- Core induction for C10: from a state whose bucket for `user_id` holds
exactly `m` tokens at the current instant, `k` same-instant checks yield
`min k m` grants followed by denials. -/
lemma runChecks_from_bucket (k : ℕ) (st : RateLimiterState) (user_id : ℕ)
    (now : ℚ) (b : TokenBucket) (m : ℕ)
    (hlook : lookupBucket st user_id = some b)
    (htok : b.tokens = (m : ℚ)) (hcap : (m : ℚ) ≤ b.capacity)
    (hlast : b.last_update = now) :
    (runChecks st user_id now k).1 =
      List.replicate (min k m) true ++ List.replicate (k - m) false := by
  induction k generalizing st b m with
  | zero => simp [runChecks]
  | succ k ih =>
    have hble : b.tokens ≤ b.capacity := by rw [htok]; exact hcap
    have hrefill : refill b now = b := refill_same_time_eq b now hlast hble
    cases m with
    | zero =>
      have hfail : ¬ ((1 : ℕ) : ℚ) ≤ (refill b now).tokens := by
        rw [hrefill, htok]; norm_num
      have hcons : consume b 1 now = (false, b) := by
        rw [consume_fail_eq b 1 now hfail, hrefill]
      have hta2 : (time_until_available b 1 now).2 = b := by
        simp only [time_until_available, hrefill]
        split <;> rfl
      have hcheck : check_rate_limit st user_id false now =
          ((false, (time_until_available b 1 now).1), storeBucket st user_id b) := by
        rw [check_rate_limit_some st user_id now b hlook, hcons]
        simp [hta2]
      have hlook' : lookupBucket (storeBucket st user_id b) user_id = some b :=
        lookupBucket_storeBucket st user_id b
      simp only [runChecks, hcheck]
      rw [ih (storeBucket st user_id b) b 0 hlook' htok hcap hlast]
      simp [List.replicate_succ]
    | succ m' =>
      have hok : ((1 : ℕ) : ℚ) ≤ (refill b now).tokens := by
        rw [hrefill, htok]
        push_cast
        linarith [(Nat.cast_nonneg m' : (0 : ℚ) ≤ (m' : ℚ))]
      have hcons : consume b 1 now =
          (true, { b with tokens := b.tokens - ((1 : ℕ) : ℚ) }) := by
        rw [consume_success_eq b 1 now hok, hrefill]
      have hcheck : check_rate_limit st user_id false now =
          ((true, 0), storeBucket st user_id { b with tokens := b.tokens - ((1 : ℕ) : ℚ) }) := by
        rw [check_rate_limit_some st user_id now b hlook, hcons]
        simp
      have hlook' : lookupBucket
          (storeBucket st user_id { b with tokens := b.tokens - ((1 : ℕ) : ℚ) }) user_id =
          some { b with tokens := b.tokens - ((1 : ℕ) : ℚ) } :=
        lookupBucket_storeBucket st user_id _
      have htok' : TokenBucket.tokens { b with tokens := b.tokens - ((1 : ℕ) : ℚ) } =
          ((m' : ℕ) : ℚ) := by
        simp only [htok]
        push_cast
        ring
      have hcap' : ((m' : ℕ) : ℚ) ≤
          TokenBucket.capacity { b with tokens := b.tokens - ((1 : ℕ) : ℚ) } := by
        refine le_trans ?_ hcap
        push_cast
        linarith
      have hlast' : TokenBucket.last_update
          { b with tokens := b.tokens - ((1 : ℕ) : ℚ) } = now := hlast
      simp only [runChecks, hcheck]
      rw [ih (storeBucket st user_id _) _ m' hlook' htok' hcap' hlast']
      simp [Nat.succ_min_succ, List.replicate_succ, Nat.succ_sub_succ]

/-- C10: a lazily created bucket is initialized full
(`tokens = capacity`), so for a fresh non-privileged entity with configured
integer capacity `c ≥ 1`, `c + 1` admission checks at the same instant
yield `c` grants followed by one denial (in particular the first check
succeeds). -/
theorem claim10_fresh_bucket_full (st : RateLimiterState) (user_id : ℕ)
    (now : ℚ) (c : ℕ)
    (hnone : lookupBucket st user_id = none)
    (hcap : st.capacity = (c : ℚ)) (hc : 1 ≤ c) :
    (mkTokenBucket st.capacity st.refill_rate now).tokens = st.capacity ∧
    (runChecks st user_id now (c + 1)).1 = List.replicate c true ++ [false] ∧
    (runChecks st user_id now (c + 1)).1.head? = some true := by
  have hmain : (runChecks st user_id now (c + 1)).1 =
      List.replicate c true ++ [false] := by
    have hcongr := runChecks_congr_first st
      (storeBucket st user_id (mkTokenBucket st.capacity st.refill_rate now))
      user_id now c (check_rate_limit_none st user_id now hnone)
    rw [hcongr]
    have hlook := lookupBucket_storeBucket st user_id
      (mkTokenBucket st.capacity st.refill_rate now)
    rw [runChecks_from_bucket (c + 1) _ user_id now
      (mkTokenBucket st.capacity st.refill_rate now) c hlook hcap
      (le_of_eq hcap.symm) rfl]
    have h1 : min (c + 1) c = c := by omega
    have h2 : c + 1 - c = 1 := by omega
    rw [h1, h2]
    rfl
  refine ⟨rfl, hmain, ?_⟩
  rw [hmain]
  obtain ⟨c', rfl⟩ : ∃ c', c = c' + 1 :=
    ⟨c - 1, (Nat.succ_pred_eq_of_pos hc).symm⟩
  simp [List.replicate_succ]

/-- Witness for C10 at a concrete fresh rate-limiter state. -/
theorem claim10_fresh_bucket_full_witness :
    (mkTokenBucket (RateLimiterState.mk [] 2 1).capacity
      (RateLimiterState.mk [] 2 1).refill_rate 0).tokens =
      (RateLimiterState.mk [] 2 1).capacity ∧
    (runChecks (RateLimiterState.mk [] 2 1) 7 0 (2 + 1)).1 =
      List.replicate 2 true ++ [false] ∧
    (runChecks (RateLimiterState.mk [] 2 1) 7 0 (2 + 1)).1.head? = some true :=
  claim10_fresh_bucket_full (RateLimiterState.mk [] 2 1) 7 0 2
    (by simp [lookupBucket]) (by norm_num) (by norm_num)

end RateLimit

namespace Chat

lemma pyStrip_length_le (l : List Char) : (pyStrip l).length ≤ l.length := by
  unfold pyStrip
  simp only [List.length_reverse]
  calc ((l.dropWhile Char.isWhitespace).reverse.dropWhile Char.isWhitespace).length
      ≤ (l.dropWhile Char.isWhitespace).reverse.length :=
        (List.dropWhile_suffix _).sublist.length_le
    _ = (l.dropWhile Char.isWhitespace).length := by simp
    _ ≤ l.length := (List.dropWhile_suffix _).sublist.length_le

lemma mem_of_getLast? {α : Type} {l : List α} {a : α}
    (h : l.getLast? = some a) : a ∈ l := by
  cases l with
  | nil => simp at h
  | cons x xs =>
    rw [List.getLast?_eq_getLast_of_ne_nil (List.cons_ne_nil x xs)] at h
    rw [← Option.some_inj.mp h]
    exact List.getLast_mem _

/-- A successful `rfind(pat, 0, stop)` result never exceeds `stop`. -/
lemma pyRfind_le (l pat : List Char) (stop i : ℕ)
    (h : pyRfind l pat stop = some i) : i ≤ stop := by
  simp only [pyRfind] at h
  have hm := mem_of_getLast? h
  rw [List.mem_filter] at hm
  have hr := List.mem_range.mp hm.1
  have hlen : (l.take stop).length ≤ stop := by
    rw [List.length_take]
    exact min_le_left _ _
  omega

/-- The chosen split point never exceeds the ceiling. -/
lemma findSplitPoint_le (text : List Char) (max_length : ℕ) :
    findSplitPoint text max_length ≤ max_length := by
  have hpick : ∀ (cur next : Option ℕ),
      (∀ j, cur = some j → j ≤ max_length) →
      (∀ j, next = some j → j ≤ max_length) →
      ∀ j, pickSplit (max_length / 2) cur next = some j → j ≤ max_length := by
    intro cur next hc hn j h
    cases cur with
    | none => exact hn j h
    | some i =>
      simp only [pickSplit] at h
      split at h
      · exact hn j h
      · exact hc j (by rw [Option.some_inj.mp h])
  have h1 := fun j => pyRfind_le text ['\n', '\n'] max_length j
  have h2 := fun j => pyRfind_le text ['\n'] max_length j
  have h3 := fun j => pyRfind_le text ['.', ' '] max_length j
  have h4 := fun j => pyRfind_le text [' '] max_length j
  simp only [findSplitPoint]
  split
  · exact le_refl _
  · next i heq =>
    exact hpick _ _ (hpick _ _ (hpick _ _ h1 h2) h3) h4 i heq

/-- One loop iteration removes at least one character (before the final
strip of the remainder). -/
lemma rest_length_le (text : List Char) (max_length fuel : ℕ)
    (hne : text ≠ []) (hlen : text.length ≤ fuel + 1) :
    (pyStrip (text.drop (findSplitPoint text max_length + 1))).length ≤ fuel := by
  have h1 := pyStrip_length_le (text.drop (findSplitPoint text max_length + 1))
  rw [List.length_drop] at h1
  have hpos : 0 < text.length := List.length_pos.mpr hne
  omega

/-- Every chunk the splitting loop emits fits in `max_length + 1`
characters (the hard-boundary fallback takes `text[:max_length + 1]`). -/
lemma splitLoopF_chunk_le (fuel : ℕ) :
    ∀ (text : List Char) (max_length : ℕ),
    ∀ chunk ∈ splitLoopF fuel text max_length, chunk.length ≤ max_length + 1 := by
  induction fuel with
  | zero =>
    intro text max_length chunk hm
    simp [splitLoopF] at hm
  | succ fuel ih =>
    intro text max_length chunk hm
    simp only [splitLoopF] at hm
    by_cases hne : text = []
    · simp [hne] at hm
    · by_cases hle : text.length ≤ max_length
      · simp only [hne, if_false, if_pos hle, List.mem_singleton] at hm
        subst hm
        omega
      · simp only [hne, if_false, if_neg hle, List.mem_cons] at hm
        rcases hm with hm | hm
        · subst hm
          calc (pyStrip (text.take (findSplitPoint text max_length + 1))).length
              ≤ (text.take (findSplitPoint text max_length + 1)).length :=
                pyStrip_length_le _
            _ ≤ findSplitPoint text max_length + 1 := by
                rw [List.length_take]; exact min_le_left _ _
            _ ≤ max_length + 1 := by
                have := findSplitPoint_le text max_length
                omega
        · exact ih _ max_length chunk hm

lemma splitLoop_chunk_le (text : List Char) (max_length : ℕ) :
    ∀ chunk ∈ splitLoop text max_length, chunk.length ≤ max_length + 1 :=
  splitLoopF_chunk_le text.length text max_length

/-- Any fuel at least `text.length` produces the same result: the fuel in
`splitLoopF` is an artefact of the encoding, not observable behaviour. -/
lemma splitLoopF_fuel_irrelevant (f1 : ℕ) :
    ∀ (f2 : ℕ) (text : List Char) (max_length : ℕ),
    text.length ≤ f1 → text.length ≤ f2 →
    splitLoopF f1 text max_length = splitLoopF f2 text max_length := by
  induction f1 with
  | zero =>
    intro f2 text max_length h1 h2
    have hnil : text = [] := by
      cases text with
      | nil => rfl
      | cons a l => simp at h1
    subst hnil
    cases f2 <;> simp [splitLoopF]
  | succ f1 ih =>
    intro f2 text max_length h1 h2
    by_cases hne : text = []
    · subst hne
      cases f2 <;> simp [splitLoopF]
    · cases f2 with
      | zero =>
        have hpos : 0 < text.length := List.length_pos.mpr hne
        omega
      | succ f2 =>
        simp only [splitLoopF, hne, if_false]
        by_cases hle : text.length ≤ max_length
        · simp [hle]
        · simp only [hle, if_false]
          have hr1 := rest_length_le text max_length f1 hne h1
          have hr2 := rest_length_le text max_length f2 hne h2
          rw [ih f2 _ max_length hr1 hr2]

end Chat

namespace Chat

lemma nonWS_dropWhile (l : List Char) :
    nonWS (l.dropWhile Char.isWhitespace) = nonWS l := by
  conv_rhs => rw [← List.takeWhile_append_dropWhile Char.isWhitespace l]
  unfold nonWS
  rw [List.filter_append]
  have hnil : (l.takeWhile Char.isWhitespace).filter (fun c => !c.isWhitespace) = [] := by
    rw [List.filter_eq_nil_iff]
    intro a ha
    simp [List.mem_takeWhile_imp ha]
  rw [hnil, List.nil_append]

lemma nonWS_reverse (l : List Char) : nonWS l.reverse = (nonWS l).reverse := by
  unfold nonWS
  exact List.filter_reverse _ _

/-- Stripping only removes whitespace: the non-whitespace content is
untouched. -/
lemma nonWS_pyStrip (l : List Char) : nonWS (pyStrip l) = nonWS l := by
  unfold pyStrip
  rw [nonWS_reverse, nonWS_dropWhile, nonWS_reverse, List.reverse_reverse,
    nonWS_dropWhile]

/-- The splitting loop loses only boundary whitespace (for sufficient
fuel, in particular the `text.length` used by `splitLoop`). -/
lemma splitLoopF_nonWS (fuel : ℕ) :
    ∀ (text : List Char) (max_length : ℕ), text.length ≤ fuel →
    nonWS (List.flatten (splitLoopF fuel text max_length)) = nonWS text := by
  induction fuel with
  | zero =>
    intro text max_length h1
    have hnil : text = [] := by
      cases text with
      | nil => rfl
      | cons a l => simp at h1
    subst hnil
    simp [splitLoopF, nonWS]
  | succ fuel ih =>
    intro text max_length h1
    simp only [splitLoopF]
    by_cases hne : text = []
    · simp [hne, nonWS]
    · by_cases hle : text.length ≤ max_length
      · simp [hne, hle]
      · simp only [hne, if_false, hle, List.flatten_cons]
        have hrest := rest_length_le text max_length fuel hne h1
        unfold nonWS
        rw [List.filter_append]
        have hih := ih (pyStrip (text.drop (findSplitPoint text max_length + 1)))
          max_length hrest
        unfold nonWS at hih
        rw [hih]
        have h2 := nonWS_pyStrip (text.take (findSplitPoint text max_length + 1))
        have h3 := nonWS_pyStrip (text.drop (findSplitPoint text max_length + 1))
        unfold nonWS at h2 h3
        rw [h2, h3, ← List.filter_append, List.take_append_drop]

lemma splitLoop_nonWS (text : List Char) (max_length : ℕ) :
    nonWS (List.flatten (splitLoop text max_length)) = nonWS text :=
  splitLoopF_nonWS text.length text max_length (le_refl _)

end Chat

namespace Chat

/-- C3 counterexample: on nine `'a'`s with ceiling 4 the hard-boundary
fallback takes `text[:max_length + 1]`, producing a 5-character segment —
so not every segment has length at most the ceiling. -/
theorem claim3_counterexample :
    ∃ chunk ∈ _split_message (List.replicate 9 'a') 4, 4 < chunk.length := by
  decide

/-- C3 (amended): every segment returned by `_split_message` has length at
most `max_length + 1`; the hard character-boundary fallback can emit exactly
`max_length + 1` characters because the source slices
`text[:split_point + 1]` with `split_point = max_length`. -/
theorem claim3_segment_length_bound (text : List Char) (max_length : ℕ) :
    ∀ chunk ∈ _split_message text max_length, chunk.length ≤ max_length + 1 := by
  intro chunk hm
  unfold _split_message at hm
  split at hm
  · next hle =>
    rw [List.mem_singleton] at hm
    subst hm
    omega
  · exact splitLoop_chunk_le text max_length chunk hm

/-- Witness for C3's amended bound at the counterexample's input. -/
theorem claim3_segment_length_bound_witness :
    (List.replicate 5 'a').length ≤ 4 + 1 :=
  claim3_segment_length_bound (List.replicate 9 'a') 4 (List.replicate 5 'a')
    (by decide)

/-- C4: for a non-empty input, `_split_message` returns at least one
segment, and the concatenation of the segments carries exactly the
non-whitespace characters of the input, in order (only boundary whitespace
is dropped by the `strip()` calls). -/
theorem claim4_split_preserves_text (text : List Char) (max_length : ℕ)
    (hne : text ≠ []) :
    1 ≤ (_split_message text max_length).length ∧
    nonWS (List.flatten (_split_message text max_length)) = nonWS text := by
  constructor
  · unfold _split_message
    split
    · simp
    · next hlong =>
      cases text with
      | nil => exact absurd rfl hne
      | cons a l =>
        rw [splitLoop]
        simp only [List.length_cons, splitLoopF, List.cons_ne_nil, if_false]
        split <;> simp
  · unfold _split_message
    split
    · simp
    · exact splitLoop_nonWS text max_length

/-- Witness for C4 at a concrete non-empty input forced through the loop. -/
theorem claim4_split_preserves_text_witness :
    1 ≤ (_split_message ['a'] 0).length ∧
    nonWS (List.flatten (_split_message ['a'] 0)) = nonWS ['a'] :=
  claim4_split_preserves_text ['a'] 0 (by decide)

/-- C7 counterexample: an input of length ≤ ceiling is returned verbatim,
NOT trimmed — `" a "` comes back as `" a "`, not `"a"`. -/
theorem claim7_counterexample :
    _split_message [' ', 'a', ' '] 4000 ≠ [pyStrip [' ', 'a', ' ']] := by
  decide

/-- C7 (amended): on input of length at most the ceiling, `_split_message`
returns exactly one segment equal to the input text unchanged (the early
`if len(text) <= max_length: return [text]` path performs no stripping). -/
theorem claim7_short_input_unchanged (text : List Char) (max_length : ℕ)
    (h : text.length ≤ max_length) :
    _split_message text max_length = [text] := by
  simp [_split_message, h]

/-- Witness for C7's amended statement. -/
theorem claim7_short_input_unchanged_witness :
    _split_message [' ', 'a', ' '] 4000 = [[' ', 'a', ' ']] :=
  claim7_short_input_unchanged [' ', 'a', ' '] 4000 (by decide)

end Chat

namespace Chat

/-- Whatever the gating decisions, a loop step extends `full_content` by
exactly the arriving chunk. -/
lemma streamStep_full (st : StreamState) (c : String) (now : ℚ) (ok : Bool) :
    ((streamStep st c now ok).1).full_content = st.full_content ++ c := by
  simp only [streamStep]
  split_ifs <;> rfl

/-- A pushed live update is the accumulated text so far plus the cursor
marker, and it is only pushed while the accumulated text is under 3500
characters. -/
lemma streamStep_push (st : StreamState) (c : String) (now : ℚ) (ok : Bool)
    (u : String) (h : (streamStep st c now ok).2 = some u) :
    u = (st.full_content ++ c) ++ " ▌" ∧ (st.full_content ++ c).length < 3500 := by
  simp only [streamStep] at h
  split_ifs at h with h1 h2 h3
  · exact ⟨(Option.some_inj.mp h).symm, h1.2⟩
  · exact ⟨(Option.some_inj.mp h).symm, h1.2⟩

/-- Core induction for C8: running the loop over fragment events yields the
full concatenated text, and every pushed update is a sub-3500-character
snapshot of it plus the cursor marker. -/
lemma streamRun_frag_result (ps : List (String × ℚ × Bool)) :
    ∀ (st : StreamState) (fb : String),
    (streamRun st (fragEvents ps) fb).1 = st.full_content ++ chunksText ps ∧
    (∀ u ∈ (streamRun st (fragEvents ps) fb).2,
      ∃ pre, pre ++ " ▌" = u ∧ pre.length < 3500 ∧
        ∃ s, pre ++ s = st.full_content ++ chunksText ps) := by
  induction ps with
  | nil =>
    intro st fb
    constructor
    · simp [fragEvents, streamRun, chunksText, String.append_empty]
    · intro u hu
      simp [fragEvents, streamRun] at hu
  | cons p ps ih =>
    intro st fb
    have hfe : fragEvents (p :: ps) =
        StreamEvent.frag p.1 p.2.1 p.2.2 :: fragEvents ps := rfl
    rw [hfe]
    simp only [streamRun]
    obtain ⟨ih1, ih2⟩ := ih (streamStep st p.1 p.2.1 p.2.2).1 fb
    have hchunks : chunksText (p :: ps) = p.1 ++ chunksText ps := rfl
    have hfull : (streamStep st p.1 p.2.1 p.2.2).1.full_content ++ chunksText ps =
        st.full_content ++ chunksText (p :: ps) := by
      rw [streamStep_full, hchunks, String.append_assoc]
    constructor
    · rw [ih1, hfull]
    · intro u hu
      rw [List.mem_append] at hu
      rcases hu with hu | hu
      · rw [Option.mem_toList, Option.mem_def] at hu
        obtain ⟨hdisp, hlt⟩ := streamStep_push st p.1 p.2.1 p.2.2 u hu
        refine ⟨st.full_content ++ p.1, hdisp.symm, hlt, chunksText ps, ?_⟩
        rw [hchunks, String.append_assoc]
      · obtain ⟨pre, hpre, hlen, s, hs⟩ := ih2 u hu
        exact ⟨pre, hpre, hlen, s, hs.trans hfull⟩

/-- C2: if the backend stream raises after a (possibly empty) prefix of
fragments, `_stream_response` returns the accumulated text when it is
non-empty, and otherwise the content of the single non-streaming
`chat_completion` fallback call. -/
theorem claim2_stream_error_graceful (ps : List (String × ℚ × Bool))
    (rest : List StreamEvent) (fallback : String) (t0 : ℚ) :
    (streamResponse (fragEvents ps ++ StreamEvent.err :: rest) fallback t0).1 =
      if chunksText ps = "" then fallback else chunksText ps := by
  have aux : ∀ (qs : List (String × ℚ × Bool)) (st : StreamState),
      (streamRun st (fragEvents qs ++ StreamEvent.err :: rest) fallback).1 =
        if st.full_content ++ chunksText qs = "" then fallback
        else st.full_content ++ chunksText qs := by
    intro qs
    induction qs with
    | nil =>
      intro st
      simp [fragEvents, streamRun, chunksText, String.append_empty]
    | cons p qs ih =>
      intro st
      have hfe : fragEvents (p :: qs) ++ StreamEvent.err :: rest =
          StreamEvent.frag p.1 p.2.1 p.2.2 ::
            (fragEvents qs ++ StreamEvent.err :: rest) := rfl
      rw [hfe]
      simp only [streamRun]
      rw [ih, streamStep_full]
      have hchunks : chunksText (p :: qs) = p.1 ++ chunksText qs := rfl
      rw [hchunks, String.append_assoc]
  have h := aux ps ⟨"", "", t0⟩
  simpa [streamResponse, String.empty_append] using h

/-- C8: over a complete (error-free) stream, every live update pushed by
the loop is a sub-3500-character snapshot of the final text followed by
the 2-character cursor marker — hence at most 3501 characters — while the
value returned for terminal delivery is the full accumulated text. -/
theorem claim8_live_updates_bounded (ps : List (String × ℚ × Bool))
    (fallback : String) (t0 : ℚ) :
    (streamResponse (fragEvents ps) fallback t0).1 = chunksText ps ∧
    ∀ u ∈ (streamResponse (fragEvents ps) fallback t0).2,
      ∃ pre, pre ++ " ▌" = u ∧ pre.length < 3500 ∧ u.length ≤ 3501 ∧
        ∃ s, pre ++ s = (streamResponse (fragEvents ps) fallback t0).1 := by
  obtain ⟨h1, h2⟩ := streamRun_frag_result ps ⟨"", "", t0⟩ fallback
  have h1' : (streamResponse (fragEvents ps) fallback t0).1 = chunksText ps := by
    simpa [streamResponse, String.empty_append] using h1
  refine ⟨h1', ?_⟩
  intro u hu
  obtain ⟨pre, hpre, hlen, s, hs⟩ := h2 u hu
  refine ⟨pre, hpre, hlen, ?_, s, ?_⟩
  · rw [← hpre, String.length_append]
    have hcur : (" ▌" : String).length = 2 := by decide
    omega
  · rw [h1']
    simpa [String.empty_append] using hs

end Chat

namespace Conversation

lemma drop_tail_eq {α : Type} (l : List α) (k : ℕ) :
    l.tail.drop k = l.drop (k + 1) := by
  cases l <;> simp

/-- Reassembling the held-out parts gives back the original list. -/
lemma assemble_parts (messages : List ChatMessage) :
    assemble (sysPart messages) (othersPart messages) = messages := by
  cases messages with
  | nil => rfl
  | cons m rest =>
    by_cases h : m.role = "system" <;> simp [sysPart, othersPart, assemble, h]

/-- Characterisation of the trimming loop: it drops exactly some count `k`
of oldest non-held messages, the loop condition held before each of those
drops, and it stops exactly when under budget or at most two remain. -/
lemma trimLoop_spec (sys : Option ChatMessage) (others : List ChatMessage)
    (max_tokens : ℕ) :
    ∃ k, trimLoop sys others max_tokens = assemble sys (others.drop k) ∧
      (∀ j < k, max_tokens < estimate_tokens (assemble sys (others.drop j)) ∧
        2 < (others.drop j).length) ∧
      (estimate_tokens (assemble sys (others.drop k)) ≤ max_tokens ∨
        (others.drop k).length ≤ 2) := by
  induction others, max_tokens using trimLoop.induct sys with
  | case1 others max_tokens hcond ih =>
    obtain ⟨k, hk, hmin, hstop⟩ := ih
    refine ⟨k + 1, ?_, ?_, ?_⟩
    · rw [trimLoop, if_pos hcond, hk, drop_tail_eq]
    · intro j hj
      cases j with
      | zero => simpa using hcond
      | succ j' =>
        have := hmin j' (by omega)
        rwa [drop_tail_eq] at this
    · rwa [drop_tail_eq] at hstop
  | case2 others max_tokens hcond =>
    refine ⟨0, ?_, ?_, ?_⟩
    · rw [trimLoop, if_neg hcond, List.drop_zero]
    · intro j hj
      omega
    · rw [List.drop_zero]
      rcases not_and_or.mp hcond with h | h
      · exact Or.inl (not_lt.mp h)
      · exact Or.inr (not_lt.mp h)

/-- C5: when the estimate exceeds the budget, trimming drops some count `k`
of the oldest non-system messages only — the result is the leading system
message (when present) followed by a suffix of the remaining messages, so
order is preserved and the leading system message survives; each drop
happened only while the estimate was still over budget with more than two
of those messages left, and the result is under budget or down to at most
two of them. -/
theorem claim5_trim_oldest_first (messages : List ChatMessage)
    (max_tokens : ℕ) (hover : max_tokens < estimate_tokens messages) :
    ∃ k, trim_context_if_needed messages max_tokens =
        assemble (sysPart messages) ((othersPart messages).drop k) ∧
      (∀ j < k, max_tokens <
          estimate_tokens (assemble (sysPart messages) ((othersPart messages).drop j)) ∧
        2 < ((othersPart messages).drop j).length) ∧
      (estimate_tokens (assemble (sysPart messages) ((othersPart messages).drop k)) ≤
          max_tokens ∨
        ((othersPart messages).drop k).length ≤ 2) := by
  unfold trim_context_if_needed
  rw [if_neg (by omega)]
  by_cases hlen : messages.length ≤ 2
  · rw [if_pos hlen]
    refine ⟨0, ?_, ?_, ?_⟩
    · rw [List.drop_zero, assemble_parts]
    · intro j hj
      omega
    · rw [List.drop_zero]
      refine Or.inr ?_
      cases messages with
      | nil => simp [othersPart]
      | cons m rest =>
        simp only [List.length_cons] at hlen
        by_cases h : m.role = "system" <;>
          simp [othersPart, h, List.length_cons] <;> omega
  · rw [if_neg hlen]
    exact trimLoop_spec (sysPart messages) (othersPart messages) max_tokens

/-- Witness for C5 at a concrete over-budget context. -/
theorem claim5_trim_oldest_first_witness :
    ∃ k, trim_context_if_needed
        [ChatMessage.mk "system" "AAAA", ChatMessage.mk "user" "BBBB",
         ChatMessage.mk "user" "CCCC", ChatMessage.mk "user" "DDDD"] 1 =
        assemble (sysPart
          [ChatMessage.mk "system" "AAAA", ChatMessage.mk "user" "BBBB",
           ChatMessage.mk "user" "CCCC", ChatMessage.mk "user" "DDDD"])
          ((othersPart
            [ChatMessage.mk "system" "AAAA", ChatMessage.mk "user" "BBBB",
             ChatMessage.mk "user" "CCCC", ChatMessage.mk "user" "DDDD"]).drop k) ∧
      (∀ j < k, 1 < estimate_tokens (assemble (sysPart
          [ChatMessage.mk "system" "AAAA", ChatMessage.mk "user" "BBBB",
           ChatMessage.mk "user" "CCCC", ChatMessage.mk "user" "DDDD"])
          ((othersPart
            [ChatMessage.mk "system" "AAAA", ChatMessage.mk "user" "BBBB",
             ChatMessage.mk "user" "CCCC", ChatMessage.mk "user" "DDDD"]).drop j)) ∧
        2 < ((othersPart
          [ChatMessage.mk "system" "AAAA", ChatMessage.mk "user" "BBBB",
           ChatMessage.mk "user" "CCCC", ChatMessage.mk "user" "DDDD"]).drop j).length) ∧
      (estimate_tokens (assemble (sysPart
          [ChatMessage.mk "system" "AAAA", ChatMessage.mk "user" "BBBB",
           ChatMessage.mk "user" "CCCC", ChatMessage.mk "user" "DDDD"])
          ((othersPart
            [ChatMessage.mk "system" "AAAA", ChatMessage.mk "user" "BBBB",
             ChatMessage.mk "user" "CCCC", ChatMessage.mk "user" "DDDD"]).drop k)) ≤ 1 ∨
        ((othersPart
          [ChatMessage.mk "system" "AAAA", ChatMessage.mk "user" "BBBB",
           ChatMessage.mk "user" "CCCC", ChatMessage.mk "user" "DDDD"]).drop k).length ≤ 2) :=
  claim5_trim_oldest_first
    [ChatMessage.mk "system" "AAAA", ChatMessage.mk "user" "BBBB",
     ChatMessage.mk "user" "CCCC", ChatMessage.mk "user" "DDDD"] 1
    (by decide)

/-- C9: when the persistence read of the history raises, building the API
messages still succeeds and yields exactly a system message followed by the
new user input — no history. -/
theorem claim9_persistence_failure_best_effort
    (personaResult : Except Unit (Option String)) (docContext : Option String)
    (new_message : String) :
    ∃ sysPrompt,
      build_api_messages personaResult docContext (Except.error ()) new_message =
        [ChatMessage.mk "system" sysPrompt, ChatMessage.mk "user" new_message] := by
  unfold build_api_messages get_context_messages
  cases docContext with
  | none => exact ⟨_get_system_prompt personaResult, rfl⟩
  | some doc =>
    exact ⟨_get_system_prompt personaResult ++
      "\n\n[Document Context]\nThe user has uploaded a document. Use this content to answer their questions:\n\n"
      ++ (doc.take 10000), rfl⟩

end Conversation
